import Mathlib

/-!
Shallow embedding of the prompt-manager tree store (src-tauri/src/models.rs,
src-tauri/src/store.rs) and proofs about its specification.

Rust strings are modelled as Lean `String` / `List Char` (sequences of Unicode
scalar values); byte indices into a string are modelled by explicit UTF-8 byte
offsets computed with `Char.utf8Size`.  Fallible operations return
`Except String`; a Rust panic inside `search` is modelled by an `Option` whose
`none` means "the call panicked".  The impure inputs of the store operations
(the uuid of `add_item`, the wall-clock `chrono::Utc::now()` timestamp, the
file system of `Store::new`) are passed as explicit parameters.
-/

/-- Models `ItemType` from models.rs (closed set of node kinds). -/
inductive ItemType where
  | provider
  | model
  | version
  | prompt
  | settings
deriving DecidableEq, Repr

/-- Models `PromptVersion` from models.rs. -/
structure PromptVersion where
  id : String
  timestamp : Int
  content : String
  label : Option String
deriving DecidableEq, Repr

/-- Models `ItemMetadata` from models.rs. -/
structure ItemMetadata where
  description : Option String
  tags : Option (List String)
  last_modified : Option Int
deriving DecidableEq, Repr

/-- Models `TreeItem` from models.rs.  A recursive structure is not allowed in
Lean, so the record is an inductive with one constructor and the fields are
exposed as projection functions below. -/
inductive TreeItem where
  | mk (id : String) (name : String) (item_type : ItemType)
       (children : List TreeItem) (parent_id : Option String)
       (content : Option String) (versions : Option (List PromptVersion))
       (metadata : ItemMetadata)

def TreeItem.id : TreeItem → String
  | .mk i _ _ _ _ _ _ _ => i

def TreeItem.name : TreeItem → String
  | .mk _ n _ _ _ _ _ _ => n

def TreeItem.item_type : TreeItem → ItemType
  | .mk _ _ t _ _ _ _ _ => t

def TreeItem.children : TreeItem → List TreeItem
  | .mk _ _ _ c _ _ _ _ => c

def TreeItem.parent_id : TreeItem → Option String
  | .mk _ _ _ _ p _ _ _ => p

def TreeItem.content : TreeItem → Option String
  | .mk _ _ _ _ _ c _ _ => c

def TreeItem.versions : TreeItem → Option (List PromptVersion)
  | .mk _ _ _ _ _ _ v _ => v

def TreeItem.metadata : TreeItem → ItemMetadata
  | .mk _ _ _ _ _ _ _ m => m

/-- Models `SearchMatch` from models.rs. -/
structure SearchMatch where
  line_content : String
  line_number : Nat
  start_column : Nat
  end_column : Nat
deriving DecidableEq, Repr

/-- Models `SearchResult` from models.rs. -/
structure SearchResult where
  item_id : String
  item_name : String
  item_type : ItemType
  match_list : List SearchMatch
  last_modified : Option Int
deriving DecidableEq, Repr

/-- Models `SearchFilters` from models.rs. -/
structure SearchFilters where
  types : Option (List ItemType)
  date : Option String
deriving DecidableEq, Repr

/-! ## Byte-offset string primitives

Rust `str` indexing and `str::find` work on UTF-8 byte offsets.  A byte offset
is valid exactly when it is the total UTF-8 size of a prefix of the character
sequence; indexing a string at an invalid offset panics in Rust. -/

/-- UTF-8 byte length of a character sequence (Rust `str::len`). -/
def byteLen (s : List Char) : Nat := (s.map Char.utf8Size).sum

/-- Models the Rust slice `s[n..]`: `some` of the suffix when byte offset `n`
lies on a character boundary of `s` (including `n = byte length`), `none` when
the slice would panic (offset out of range or inside a multi-byte character). -/
def dropBytes : List Char → Nat → Option (List Char)
  | s, 0 => some s
  | [], _ + 1 => none
  | c :: s, n + 1 =>
    if c.utf8Size ≤ n + 1 then dropBytes s (n + 1 - c.utf8Size) else none

/-- Models Rust `str::find` with a `&str` pattern: the byte offset of the
first (leftmost) occurrence of `q` in `hay`.  An occurrence of valid UTF-8 in
valid UTF-8 always starts on a character boundary, so scanning by characters
while accumulating byte sizes is exact. -/
def findFrom (hay q : List Char) : Option Nat :=
  if q.isPrefixOf hay then some 0
  else
    match hay with
    | [] => none
    | c :: rest => (findFrom rest q).map (fun i => i + c.utf8Size)

/-- Occurrence test: `q` occurs in `s` at byte offset `o` (in particular `o`
is a character boundary of `s`). -/
def occursAt (s q : List Char) (o : Nat) : Bool :=
  match dropBytes s o with
  | some t => q.isPrefixOf t
  | none => false

/-- Models Rust `char`-wise lowercasing restricted to characters whose Unicode
lowercase mapping is a single character equal to the ASCII mapping or to the
character itself (`Char.toLower` maps `A`..`Z` to `a`..`z` and fixes all other
characters).  On such characters it agrees with Rust `str::to_lowercase`. -/
def lowercase (s : List Char) : List Char := s.map Char.toLower

/-- Models `query.trim().is_empty()`: a string trims to empty exactly when all
its characters are whitespace. -/
def trim_is_empty (s : String) : Bool := s.data.all Char.isWhitespace

/-- Split a character sequence at every newline character, keeping empty
pieces (helper for `rust_lines`). -/
def split_newline : List Char → List (List Char)
  | [] => [[]]
  | c :: rest =>
    if c = '\n' then [] :: split_newline rest
    else
      match split_newline rest with
      | [] => [[c]]
      | p :: ps => (c :: p) :: ps

/-- Remove one trailing carriage return, if present (Rust `str::lines` treats
`\r\n` as a line terminator). -/
def strip_cr (l : List Char) : List Char :=
  if l.getLast? = some '\r' then l.dropLast else l

/-- Models Rust `str::lines`: split at `\n` (or `\r\n`), with no final empty
line for a trailing terminator. -/
def rust_lines (s : List Char) : List (List Char) :=
  let pieces := split_newline s
  let kept := if pieces.getLast? = some [] then pieces.dropLast else pieces
  kept.map strip_cr

/-! ## The per-line occurrence scan of `Store::search_recursive`

Models the loop (store.rs lines 192-202)

```text
let mut start_idx = 0;
while let Some(idx) = lower_line[start_idx..].find(query) {
    let absolute_idx = start_idx + idx;
    matches.push(SearchMatch \x7b .. \x7d);
    start_idx = absolute_idx + 1;
}
```

as a function returning the list of absolute byte offsets pushed, or `none`
when the slice `lower_line[start_idx..]` panics.  The recursion is driven by
an explicit gas parameter consumed once per loop iteration; since `start_idx`
grows by at least one byte per iteration, gas `byteLen lower_line + 1 -
start_idx` is enough to reach the loop's own exit (theorem `scan_line_eq`
below shows the gas never runs out for the chosen initial amount). -/
def scan_line_gas : Nat → List Char → List Char → Nat → Option (List Nat)
  | gas, lower_line, q, start_idx =>
    match dropBytes lower_line start_idx with
    | none => none
    | some slice =>
      match findFrom slice q with
      | none => some []
      | some idx =>
        match gas with
        | 0 => none
        | g + 1 =>
          match scan_line_gas g lower_line q (start_idx + idx + 1) with
          | none => none
          | some rest => some ((start_idx + idx) :: rest)

/-- The byte offsets at which the inner `while let` loop of
`Store::search_recursive` records matches when started at `start_idx`
(`none` models a panic). -/
def scan_line (lower_line q : List Char) (start_idx : Nat) : Option (List Nat) :=
  scan_line_gas (byteLen lower_line + 1 - start_idx) lower_line q start_idx

/-- Models the body of `for (i, line) in content.lines().enumerate()` in
`Store::search_recursive`: all matches of one line, already shaped as
`SearchMatch` values.  The original (not lowercased) line text is stored;
columns are the byte offsets of the match in the lowercased line plus one, and
`end_column` adds the byte length of the (lowercased) query. -/
def line_matches (q : List Char) (line_index : Nat) (line : List Char) :
    Option (List SearchMatch) :=
  match scan_line (lowercase line) q 0 with
  | none => none
  | some occs =>
    some (occs.map (fun absolute_idx =>
      { line_content := ⟨line⟩
        line_number := line_index + 1
        start_column := absolute_idx + 1
        end_column := absolute_idx + 1 + byteLen q }))

/-- Accumulates `line_matches` over the remaining lines (the `for` loop of
store.rs lines 190-203), propagating a panic. -/
def content_matches_from : List (List Char) → List Char → Nat → Option (List SearchMatch)
  | [], _, _ => some []
  | line :: rest, q, i =>
    match line_matches q i line with
    | none => none
    | some ms =>
      match content_matches_from rest q (i + 1) with
      | none => none
      | some rest_ms => some (ms ++ rest_ms)

/-- All `SearchMatch` values produced from one Prompt node's content. -/
def content_matches (q content : List Char) : Option (List SearchMatch) :=
  content_matches_from (rust_lines content) q 0

/-- The type filter of `Store::search_recursive` (store.rs lines 168-176):
a node passes when no filter or no type list is supplied, when the list is
empty, or when it contains the node's kind. -/
def search_type_match (ty : ItemType) : Option SearchFilters → Bool
  | some f =>
    match f.types with
    | some types => types.isEmpty || types.contains ty
    | none => true
  | none => true

/-- One node's own contribution inside the loop of `Store::search_recursive`
(store.rs lines 164-219): the type filter (the date filter is the constant
`true`, line 179), the name substring test, the per-line content scan for
Prompt nodes, and the conditional push of one `SearchResult`.  Produces the
pushed results for this node alone (`[]` or a singleton), or `none` for a
panic in the content scan. -/
def search_node_step : TreeItem → List Char → Option SearchFilters → Option (List SearchResult)
  | .mk nid nm ty _ch _pid co _vs md, query, filters =>
    if search_type_match ty filters && true then
      match (if ty = ItemType.prompt then
               match co with
               | some content => content_matches query content.data
               | none => some []
             else some []) with
      | none => none
      | some ms =>
        if (findFrom (lowercase nm.data) query).isSome || !ms.isEmpty then
          some [{ item_id := nid, item_name := nm, item_type := ty,
                  match_list := ms, last_modified := md.last_modified }]
        else some []
    else some []

/-- Models `Store::search_recursive` (store.rs lines 162-223).  The traversal
is pre-order and unconditional: a node's own result (if it matches) precedes
its children's results, which precede its later siblings'; filtering gates
only the node's own match test, never the recursion.  `none` models a panic
escaping the whole search. -/
def search_recursive : List TreeItem → List Char → Option SearchFilters → Option (List SearchResult)
  | [], _, _ => some []
  | .mk nid nm ty ch pid co vs md :: rest, query, filters =>
    match search_node_step (.mk nid nm ty ch pid co vs md) query filters with
    | none => none
    | some here =>
      match search_recursive ch query filters with
      | none => none
      | some child_results =>
        match search_recursive rest query filters with
        | none => none
        | some rest_results => some (here ++ child_results ++ rest_results)

/-- Models `Store::search` (store.rs lines 148-160): empty-after-trim queries
return no results without scanning; otherwise the lowercased query is matched
over the whole forest.  `none` models a panic. -/
def search (data : List TreeItem) (query : String) (filters : Option SearchFilters) :
    Option (List SearchResult) :=
  if trim_is_empty query then some []
  else search_recursive data (lowercase query.data) filters

/-! ## Store CRUD operations -/

/-- Models `Store::find_node_recursive` (store.rs lines 56-66): depth-first
pre-order search for the first node with the given id. -/
def find_node_recursive : List TreeItem → String → Option TreeItem
  | [], _ => none
  | .mk nid nm ty ch pid co vs md :: rest, i =>
    if nid = i then some (.mk nid nm ty ch pid co vs md)
    else
      match find_node_recursive ch i with
      | some found => some found
      | none => find_node_recursive rest i

/-- Models `Store::find_node_mut_recursive` followed by
`parent.children.push(item)` (store.rs lines 76-77 and 92-102): the first
depth-first node with the given id gets `child` appended to its children;
`none` when no node has the id. -/
def push_child_recursive : List TreeItem → String → TreeItem → Option (List TreeItem)
  | [], _, _ => none
  | .mk nid nm ty ch pid co vs md :: rest, i, child =>
    if nid = i then some (.mk nid nm ty (ch ++ [child]) pid co vs md :: rest)
    else
      match push_child_recursive ch i child with
      | some ch2 => some (.mk nid nm ty ch2 pid co vs md :: rest)
      | none =>
        match push_child_recursive rest i child with
        | some rest2 => some (.mk nid nm ty ch pid co vs md :: rest2)
        | none => none

/-- Overwrite a node's id and `metadata.last_modified` (store.rs lines 72-73:
`item.id = Uuid::new_v4(); item.metadata.last_modified = Some(now)`). -/
def TreeItem.set_id_time : TreeItem → String → Int → TreeItem
  | .mk _ nm ty ch pid co vs md, new_id, now =>
    .mk new_id nm ty ch pid co vs
      { description := md.description, tags := md.tags, last_modified := some now }

/-- Models `Store::add_item` (store.rs lines 68-90).  The generated uuid and
the current timestamp are explicit parameters `new_id` and `now`; the
persistence write is outside the model.  Returns the operation's result and
the forest after the call. -/
def add_item (data : List TreeItem) (parent_id : Option String) (item : TreeItem)
    (new_id : String) (now : Int) : Except String TreeItem × List TreeItem :=
  let item2 := item.set_id_time new_id now
  match parent_id with
  | some p_id =>
    match push_child_recursive data p_id item2 with
    | some data2 => (Except.ok item2, data2)
    | none => (Except.error "Parent not found", data)
  | none => (Except.ok item2, data ++ [item2])

/-- Models Rust `Option::or`: keep the first operand when present, otherwise
take the second. -/
def opt_or {α : Type} : Option α → Option α → Option α
  | some x, _ => some x
  | none, b => b

/-- Models the field merge of `Store::update_item` (store.rs lines 109-116):
`name`, `content` and `versions` are overwritten unconditionally;
`metadata.description` and `metadata.tags` follow `updates.or(existing)`;
`metadata.last_modified` becomes the current time; `id`, `item_type`,
`children` and `parent_id` are untouched. -/
def apply_updates : TreeItem → TreeItem → Int → TreeItem
  | .mk nid _ ty ch pid _ _ md, .mk _ unm _ _ _ uco uvs umd, now =>
    .mk nid unm ty ch pid uco uvs
      { description := opt_or umd.description md.description
        tags := opt_or umd.tags md.tags
        last_modified := some now }

/-- Models `find_node_mut_recursive` followed by the in-place merge of
`Store::update_item`: the first depth-first node with the given id is replaced
by its merged version; returns the merged node and the new forest. -/
def update_node_recursive : List TreeItem → String → TreeItem → Int →
    Option (TreeItem × List TreeItem)
  | [], _, _, _ => none
  | .mk nid nm ty ch pid co vs md :: rest, i, updates, now =>
    if nid = i then
      let u := apply_updates (.mk nid nm ty ch pid co vs md) updates now
      some (u, u :: rest)
    else
      match update_node_recursive ch i updates now with
      | some (u, ch2) => some (u, .mk nid nm ty ch2 pid co vs md :: rest)
      | none =>
        match update_node_recursive rest i updates now with
        | some (u, rest2) => some (u, .mk nid nm ty ch pid co vs md :: rest2)
        | none => none

/-- Models `Store::update_item` (store.rs lines 104-126). -/
def update_item (data : List TreeItem) (i : String) (updates : TreeItem) (now : Int) :
    Except String TreeItem × List TreeItem :=
  match update_node_recursive data i updates now with
  | some (u, data2) => (Except.ok u, data2)
  | none => (Except.error "Item not found", data)

/-- Models `nodes.iter().position(|x| x.id == id)` followed by
`nodes.remove(pos)` (store.rs lines 138-140): remove the first element whose
id matches, `none` when no element matches. -/
def remove_first_id : List TreeItem → String → Option (List TreeItem)
  | [], _ => none
  | n :: rest, i =>
    if n.id = i then some rest
    else (remove_first_id rest i).map (fun rest2 => n :: rest2)

mutual

/-- Models `Store::delete_node_recursive` (store.rs lines 136-146): if some
element of the current level matches, splice out the first such element and
stop; otherwise recurse into the children of every element. -/
def delete_node_recursive (nodes : List TreeItem) (i : String) : List TreeItem :=
  match remove_first_id nodes i with
  | some pruned => pruned
  | none => delete_children_all nodes i

/-- The `for node in nodes.iter_mut()` loop of `delete_node_recursive`: the
recursion is applied to the children of every element of the level. -/
def delete_children_all : List TreeItem → String → List TreeItem
  | [], _ => []
  | .mk nid nm ty ch pid co vs md :: rest, i =>
    .mk nid nm ty (delete_node_recursive ch i) pid co vs md :: delete_children_all rest i

end

/-- Models `Store::delete_item` (store.rs lines 128-134): always returns
`Ok(())` (the id may be absent); the persistence write is outside the model. -/
def delete_item (data : List TreeItem) (i : String) : Except String Unit × List TreeItem :=
  (Except.ok (), delete_node_recursive data i)

/-- Models the data-loading part of `Store::new` (store.rs lines 26-32).  The
file system is abstracted by `file_present` (does the store file exist) and
`read_result` (`some` contents on a successful read, `none` on a read error);
`parse` abstracts `serde_json::from_str` for the forest type.  A read error
falls back to the literal `"[]"` and a parse failure falls back to the empty
forest. -/
def load_data (file_present : Bool) (read_result : Option String)
    (parse : String → Option (List TreeItem)) : List TreeItem :=
  if file_present then
    let content := match read_result with
      | some s => s
      | none => "[]"
    match parse content with
    | some forest => forest
    | none => []
  else []

/-- Detach the first depth-first node with the given id together with its
subtree, returning it and the forest without it (helper for the
spec-modelled `move_item`). -/
def detach_node_recursive : List TreeItem → String → Option (TreeItem × List TreeItem)
  | [], _ => none
  | .mk nid nm ty ch pid co vs md :: rest, i =>
    if nid = i then some (.mk nid nm ty ch pid co vs md, rest)
    else
      match detach_node_recursive ch i with
      | some (m, ch2) => some (m, .mk nid nm ty ch2 pid co vs md :: rest)
      | none =>
        match detach_node_recursive rest i with
        | some (m, rest2) => some (m, .mk nid nm ty ch pid co vs md :: rest2)
        | none => none

/-- Overwrite a node's `parent_id` back-reference (for `move_item`). -/
def TreeItem.set_parent : TreeItem → Option String → TreeItem
  | .mk nid nm ty ch _ co vs md, p => .mk nid nm ty ch p co vs md

/-- Modelled from the spec: `Store::move_item` is called by the `move_item`
command of main.rs but has no implementation in store.rs.  Following spec
section 4.1, the node and its subtree are detached from their current location
first, the `parent_id` back-reference is updated, and only then is the new
parent searched for in the remaining forest, so a new parent inside the moved
subtree (the node itself or a descendant) is not found and the move is
rejected; a missing `new_parent_id` promotes the node to a root at the end of
the forest. -/
def move_item (data : List TreeItem) (item_id : String) (new_parent_id : Option String) :
    Except String TreeItem × List TreeItem :=
  match detach_node_recursive data item_id with
  | none => (Except.error "Item not found", data)
  | some (node, rest) =>
    let node2 := node.set_parent new_parent_id
    match new_parent_id with
    | none => (Except.ok node2, rest ++ [node2])
    | some p_id =>
      match push_child_recursive rest p_id node2 with
      | some data2 => (Except.ok node2, data2)
      | none => (Except.error "New parent not found (missing, or inside the moved subtree)", data)

/-- All ids of a forest, in depth-first pre-order. -/
def collect_ids : List TreeItem → List String
  | [] => []
  | .mk nid _ _ ch _ _ _ _ :: rest => nid :: (collect_ids ch ++ collect_ids rest)

/-- All ids of one node's subtree: its own id and every descendant's id. -/
def subtree_ids (n : TreeItem) : List String := n.id :: collect_ids n.children

/-- Replace a node's children list. -/
def TreeItem.set_children : TreeItem → List TreeItem → TreeItem
  | .mk nid nm ty _ pid co vs md, ch => .mk nid nm ty ch pid co vs md

/-- Append one child at the end of a node's children (the effect of
`parent.children.push(item)` on the found parent). -/
def append_child : TreeItem → TreeItem → TreeItem
  | .mk nid nm ty ch pid co vs md, child => .mk nid nm ty (ch ++ [child]) pid co vs md

/-- Character-offset variant of `findFrom`, written from the spec's words for
the column fields ("column = character offset, not byte offset, plus 1"): the
number of characters strictly before the first occurrence of `q` in `hay`. -/
def findFromCharIdx (hay q : List Char) : Option Nat :=
  if q.isPrefixOf hay then some 0
  else
    match hay with
    | [] => none
    | _ :: rest => (findFromCharIdx rest q).map (fun i => i + 1)

/-! ## Concrete fixtures used by the example theorems and witnesses -/

/-- The Prompt node of the spec's overlap example (content
`"cat\nconcatenate\n"`). -/
def c1_node : TreeItem :=
  .mk "id1" "p" .prompt [] none (some "cat\nconcatenate\n") none ⟨none, none, none⟩

/-- A Prompt node whose content holds a multi-byte character before a match. -/
def c2_node : TreeItem :=
  .mk "id2" "p" .prompt [] none (some "écat") none ⟨none, none, none⟩

/-- A Prompt node whose content consists of two-byte characters. -/
def c3_node : TreeItem :=
  .mk "id3" "p" .prompt [] none (some "éé") none ⟨none, none, none⟩

/-- Two root nodes sharing the id `"a"` (the uniqueness invariant violated). -/
def dup_a1 : TreeItem := .mk "a" "first" .prompt [] none none none ⟨none, none, none⟩

def dup_a2 : TreeItem := .mk "a" "second" .prompt [] none none none ⟨none, none, none⟩

/-- Two distinct parents, each holding a child with the shared id `"a"`. -/
def branch1 : TreeItem := .mk "p1" "left" .provider [dup_a1] none none none ⟨none, none, none⟩

def branch2 : TreeItem := .mk "p2" "right" .provider [dup_a2] none none none ⟨none, none, none⟩

/-- A small two-level forest with unique ids (witness input). -/
def w_child : TreeItem := .mk "c" "child" .prompt [] none none none ⟨none, none, none⟩

def w_parent : TreeItem := .mk "r" "root" .provider [w_child] none none none ⟨none, none, none⟩

/-- A node with populated metadata (witness input for the update claim). -/
def w4_node : TreeItem :=
  .mk "u1" "old name" .prompt [] none (some "old content") none
    ⟨some "old desc", some ["t1"], some 5⟩

/-- An update patch with empty name and absent metadata. -/
def w4_patch : TreeItem := .mk "zzz" "" .prompt [] none none none ⟨none, none, none⟩

/-- A parse function modelling `serde_json::from_str` on the two inputs the
load-path claim needs (the literal `"[]"` parses to the empty forest,
everything else is malformed). -/
def w10_parse (s : String) : Option (List TreeItem) :=
  if s = "[]" then some [] else none

/-! ## Helper lemmas: induction over forests -/

/-- Induction principle over forests of `TreeItem`: handle the empty forest,
and a head node given the hypothesis for its children and for the remaining
siblings. -/
theorem forest_induction {P : List TreeItem → Prop} (h0 : P [])
    (h1 : ∀ nid nm ty ch pid co vs md rest,
      P ch → P rest → P (.mk nid nm ty ch pid co vs md :: rest)) :
    ∀ f : List TreeItem, P f
  | [] => h0
  | .mk nid nm ty ch pid co vs md :: rest =>
    h1 nid nm ty ch pid co vs md rest (forest_induction h0 h1 ch) (forest_induction h0 h1 rest)

/-! ## Helper lemmas: byte offsets, `findFrom` and `scan_line` -/

theorem byteLen_nil : byteLen [] = 0 := rfl

theorem byteLen_cons (c : Char) (s : List Char) :
    byteLen (c :: s) = c.utf8Size + byteLen s := by
  simp [byteLen]

theorem dropBytes_byteLen :
    ∀ (s : List Char) (n : Nat) (t : List Char),
      dropBytes s n = some t → n + byteLen t = byteLen s := by
  intro s
  induction s with
  | nil =>
    intro n t h
    cases n with
    | zero => simp only [dropBytes, Option.some.injEq] at h; subst h; omega
    | succ m => simp [dropBytes] at h
  | cons c cs ih =>
    intro n t h
    cases n with
    | zero => simp only [dropBytes, Option.some.injEq] at h; subst h; omega
    | succ m =>
      simp only [dropBytes] at h
      split at h
      case isTrue hle =>
        have := ih _ _ h
        rw [byteLen_cons]
        omega
      case isFalse hlt => exact absurd h (by simp)

theorem dropBytes_none_of_gt (l : List Char) (n : Nat) (h : byteLen l < n) :
    dropBytes l n = none := by
  cases hd : dropBytes l n with
  | none => rfl
  | some t => have := dropBytes_byteLen l n t hd; omega

theorem dropBytes_add :
    ∀ (s : List Char) (a : Nat) (t : List Char),
      dropBytes s a = some t → ∀ i, dropBytes s (a + i) = dropBytes t i := by
  intro s
  induction s with
  | nil =>
    intro a t h i
    cases a with
    | zero =>
      simp only [dropBytes, Option.some.injEq] at h; subst h
      simp
    | succ m => simp [dropBytes] at h
  | cons c cs ih =>
    intro a t h i
    cases a with
    | zero =>
      simp only [dropBytes, Option.some.injEq] at h; subst h
      simp
    | succ m =>
      simp only [dropBytes] at h
      split at h
      case isTrue hle =>
        have hpos := Char.utf8Size_pos c
        have harith : m + 1 + i = (m + i) + 1 := by omega
        rw [harith]
        simp only [dropBytes]
        rw [if_pos (by omega)]
        have harith2 : m + i + 1 - c.utf8Size = (m + 1 - c.utf8Size) + i := by omega
        rw [harith2]
        exact ih _ _ h i
      case isFalse hlt => exact absurd h (by simp)

theorem dropBytes_zero (s : List Char) : dropBytes s 0 = some s := by
  cases s <;> rfl

theorem occursAt_zero (s q : List Char) : occursAt s q 0 = q.isPrefixOf s := by
  simp [occursAt, dropBytes_zero]

theorem occursAt_add (l q slice : List Char) (s : Nat)
    (hd : dropBytes l s = some slice) (j : Nat) :
    occursAt l q (s + j) = occursAt slice q j := by
  unfold occursAt
  rw [dropBytes_add l s slice hd j]

theorem occursAt_cons_lt (c : Char) (s q : List Char) (j : Nat)
    (h1 : 1 ≤ j) (h2 : j < c.utf8Size) : occursAt (c :: s) q j = false := by
  unfold occursAt
  cases j with
  | zero => omega
  | succ m =>
    simp only [dropBytes]
    rw [if_neg (by omega)]

theorem occursAt_cons_ge (c : Char) (s q : List Char) (j : Nat)
    (h : c.utf8Size ≤ j) : occursAt (c :: s) q j = occursAt s q (j - c.utf8Size) := by
  have hpos := Char.utf8Size_pos c
  unfold occursAt
  cases j with
  | zero => omega
  | succ m =>
    simp only [dropBytes]
    rw [if_pos h]

theorem findFrom_le_byteLen :
    ∀ (hay q : List Char) (i : Nat), findFrom hay q = some i → i ≤ byteLen hay := by
  intro hay
  induction hay with
  | nil =>
    intro q i h
    unfold findFrom at h
    split at h
    · simp only [Option.some.injEq] at h; omega
    · simp at h
  | cons c cs ih =>
    intro q i h
    unfold findFrom at h
    split at h
    · simp only [Option.some.injEq] at h
      omega
    · simp only [Option.map_eq_some'] at h
      obtain ⟨j, hj, rfl⟩ := h
      have := ih q j hj
      rw [byteLen_cons]
      omega

theorem findFrom_occursAt :
    ∀ (hay q : List Char) (i : Nat), findFrom hay q = some i → occursAt hay q i = true := by
  intro hay
  induction hay with
  | nil =>
    intro q i h
    unfold findFrom at h
    split at h
    case isTrue hp => simp only [Option.some.injEq] at h; subst h; rw [occursAt_zero]; exact hp
    case isFalse hp => simp at h
  | cons c cs ih =>
    intro q i h
    unfold findFrom at h
    split at h
    case isTrue hp => simp only [Option.some.injEq] at h; subst h; rw [occursAt_zero]; exact hp
    case isFalse hp =>
      simp only [Option.map_eq_some'] at h
      obtain ⟨j, hj, rfl⟩ := h
      rw [occursAt_cons_ge c cs q _ (by omega)]
      have harith : j + c.utf8Size - c.utf8Size = j := by omega
      rw [harith]
      exact ih q j hj

theorem findFrom_min :
    ∀ (hay q : List Char) (i : Nat), findFrom hay q = some i →
      ∀ j, j < i → occursAt hay q j = false := by
  intro hay
  induction hay with
  | nil =>
    intro q i h j hj
    unfold findFrom at h
    split at h
    · simp only [Option.some.injEq] at h; omega
    · simp at h
  | cons c cs ih =>
    intro q i h j hj
    unfold findFrom at h
    split at h
    case isTrue hp => simp only [Option.some.injEq] at h; omega
    case isFalse hp =>
      simp only [Option.map_eq_some'] at h
      obtain ⟨k, hk, rfl⟩ := h
      cases j with
      | zero =>
        rw [occursAt_zero]
        simp only [Bool.not_eq_true] at hp
        exact hp
      | succ m =>
        by_cases hc : c.utf8Size ≤ m + 1
        · rw [occursAt_cons_ge c cs q _ hc]
          exact ih q k hk _ (by omega)
        · exact occursAt_cons_lt c cs q _ (by omega) (by omega)

theorem findFrom_none :
    ∀ (hay q : List Char), findFrom hay q = none →
      ∀ j, occursAt hay q j = false := by
  intro hay
  induction hay with
  | nil =>
    intro q h j
    unfold findFrom at h
    split at h
    · simp at h
    · cases j with
      | zero =>
        rw [occursAt_zero]
        simp only [Bool.not_eq_true] at *
        assumption
      | succ m => simp [occursAt, dropBytes]
  | cons c cs ih =>
    intro q h j
    unfold findFrom at h
    split at h
    case isTrue hp => simp at h
    case isFalse hp =>
      simp only [Option.map_eq_none'] at h
      cases j with
      | zero =>
        rw [occursAt_zero]
        simp only [Bool.not_eq_true] at hp
        exact hp
      | succ m =>
        by_cases hc : c.utf8Size ≤ m + 1
        · rw [occursAt_cons_ge c cs q _ hc]
          exact ih q h _
        · exact occursAt_cons_lt c cs q _ (by omega) (by omega)

theorem scan_line_gas_mem :
    ∀ (gas : Nat) (l q : List Char) (s : Nat) (occs : List Nat),
      byteLen l + 1 - s ≤ gas → scan_line_gas gas l q s = some occs →
      ∀ o, o ∈ occs ↔ (s ≤ o ∧ occursAt l q o = true) := by
  intro gas
  induction gas with
  | zero =>
    intro l q s occs hgas h o
    rw [scan_line_gas] at h
    rw [dropBytes_none_of_gt l s (by omega)] at h
    simp at h
  | succ g ih =>
    intro l q s occs hgas h o
    rw [scan_line_gas] at h
    split at h
    · exact absurd h (by simp)
    next slice hd =>
      have hsb := dropBytes_byteLen l s slice hd
      split at h
      next hf =>
        simp only [Option.some.injEq] at h
        subst h
        simp only [List.not_mem_nil, false_iff, not_and]
        intro hso hocc
        have hshift := occursAt_add l q slice s hd (o - s)
        rw [show s + (o - s) = o from by omega] at hshift
        rw [hshift] at hocc
        rw [findFrom_none slice q hf (o - s)] at hocc
        exact absurd hocc (by simp)
      next idx hf =>
        split at h
        · exact absurd h (by simp)
        next g2 heq =>
          have hg2 : g2 = g := by omega
          subst hg2
          split at h
          · exact absurd h (by simp)
          next rest hrec =>
            simp only [Option.some.injEq] at h
            subst h
            have hfb := findFrom_le_byteLen slice q idx hf
            have ihm := ih l q (s + idx + 1) rest (by omega) hrec
            have hocc_here : occursAt l q (s + idx) = true := by
              rw [occursAt_add l q slice s hd idx]
              exact findFrom_occursAt slice q idx hf
            constructor
            · intro hmem
              rcases List.mem_cons.mp hmem with rfl | hmem2
              · exact ⟨by omega, hocc_here⟩
              · have := (ihm o).mp hmem2
                exact ⟨by omega, this.2⟩
            · rintro ⟨hso, hocc⟩
              by_cases hbig : s + idx + 1 ≤ o
              · exact List.mem_cons.mpr (Or.inr ((ihm o).mpr ⟨hbig, hocc⟩))
              · have hle : o - s ≤ idx := by omega
                have hshift := occursAt_add l q slice s hd (o - s)
                rw [show s + (o - s) = o from by omega] at hshift
                rcases Nat.lt_or_ge (o - s) idx with hlt | hge
                · rw [hshift, findFrom_min slice q idx hf (o - s) hlt] at hocc
                  exact absurd hocc (by simp)
                · have : o = s + idx := by omega
                  subst this
                  exact List.mem_cons.mpr (Or.inl rfl)

theorem scan_line_mem (l q : List Char) (s : Nat) (occs : List Nat)
    (h : scan_line l q s = some occs) (o : Nat) :
    o ∈ occs ↔ (s ≤ o ∧ occursAt l q o = true) :=
  scan_line_gas_mem (byteLen l + 1 - s) l q s occs (Nat.le_refl _) h o

theorem scan_line_gas_congr :
    ∀ (g1 g2 : Nat) (l q : List Char) (s : Nat),
      byteLen l + 1 - s ≤ g1 → byteLen l + 1 - s ≤ g2 →
      scan_line_gas g1 l q s = scan_line_gas g2 l q s := by
  intro g1
  induction g1 with
  | zero =>
    intro g2 l q s h1 h2
    rw [scan_line_gas, scan_line_gas]
    rw [dropBytes_none_of_gt l s (by omega)]
  | succ g ih =>
    intro g2 l q s h1 h2
    rw [scan_line_gas, scan_line_gas]
    cases hd : dropBytes l s with
    | none => rfl
    | some slice =>
      simp only [hd]
      have hsb := dropBytes_byteLen l s slice hd
      cases hf : findFrom slice q with
      | none => simp [hf]
      | some idx =>
        simp only [hf]
        cases g2 with
        | zero => omega
        | succ g2p =>
          have hfb := findFrom_le_byteLen slice q idx hf
          rw [ih g2p l q (s + idx + 1) (by omega) (by omega)]

theorem scan_line_eq (l q : List Char) (s : Nat) :
    scan_line l q s =
      match dropBytes l s with
      | none => none
      | some slice =>
        match findFrom slice q with
        | none => some []
        | some idx =>
          match scan_line l q (s + idx + 1) with
          | none => none
          | some rest => some ((s + idx) :: rest)
    := by
  unfold scan_line
  rw [scan_line_gas]
  cases hd : dropBytes l s with
  | none => rfl
  | some slice =>
    simp only [hd]
    have hsb := dropBytes_byteLen l s slice hd
    cases hf : findFrom slice q with
    | none => simp [hf]
    | some idx =>
      simp only [hf]
      have hfb := findFrom_le_byteLen slice q idx hf
      cases hg : byteLen l + 1 - s with
      | zero => omega
      | succ g =>
        simp only []
        rw [scan_line_gas_congr g (byteLen l + 1 - (s + idx + 1)) l q (s + idx + 1)
          (by omega) (by omega)]

/-! ## Helper lemmas: `line_matches`, `content_matches`, `search_recursive` -/

theorem line_matches_complete (q : List Char) (i : Nat) (line : List Char)
    (ms : List SearchMatch) (h : line_matches q i line = some ms)
    (o : Nat) (ho : occursAt (lowercase line) q o = true) :
    ({ line_content := ⟨line⟩, line_number := i + 1,
       start_column := o + 1, end_column := o + 1 + byteLen q } : SearchMatch) ∈ ms := by
  unfold line_matches at h
  split at h
  · exact absurd h (by simp)
  next occs hs =>
    simp only [Option.some.injEq] at h
    subst h
    have hmem : o ∈ occs := (scan_line_mem _ _ _ _ hs o).mpr ⟨Nat.zero_le o, ho⟩
    exact List.mem_map.mpr ⟨o, hmem, rfl⟩

theorem line_matches_member (q : List Char) (i : Nat) (line : List Char)
    (ms : List SearchMatch) (h : line_matches q i line = some ms)
    (m : SearchMatch) (hm : m ∈ ms) :
    ∃ o, occursAt (lowercase line) q o = true ∧ m.line_content = ⟨line⟩ ∧
      m.line_number = i + 1 ∧ m.start_column = o + 1 ∧
      m.end_column = o + 1 + byteLen q := by
  unfold line_matches at h
  split at h
  · exact absurd h (by simp)
  next occs hs =>
    simp only [Option.some.injEq] at h
    subst h
    obtain ⟨o, ho, rfl⟩ := List.mem_map.mp hm
    exact ⟨o, ((scan_line_mem _ _ _ _ hs o).mp ho).2, rfl, rfl, rfl, rfl⟩

theorem content_matches_from_complete :
    ∀ (lines : List (List Char)) (q : List Char) (i : Nat) (ms : List SearchMatch),
      content_matches_from lines q i = some ms →
      ∀ (k : Nat) (line : List Char), lines[k]? = some line →
      ∀ o, occursAt (lowercase line) q o = true →
      ({ line_content := ⟨line⟩, line_number := i + k + 1,
         start_column := o + 1, end_column := o + 1 + byteLen q } : SearchMatch) ∈ ms := by
  intro lines
  induction lines with
  | nil => intro q i ms h k line hk; simp at hk
  | cons hd tl ih =>
    intro q i ms h k line hk o ho
    unfold content_matches_from at h
    split at h
    · exact absurd h (by simp)
    next ms1 h1 =>
      split at h
      · exact absurd h (by simp)
      next ms2 h2 =>
        simp only [Option.some.injEq] at h
        subst h
        cases k with
        | zero =>
          simp only [List.getElem?_cons_zero, Option.some.injEq] at hk
          subst hk
          exact List.mem_append.mpr (Or.inl (line_matches_complete q i hd ms1 h1 o ho))
        | succ k2 =>
          simp only [List.getElem?_cons_succ] at hk
          have hin := ih q (i + 1) ms2 h2 k2 line hk o ho
          have harith : i + 1 + k2 = i + (k2 + 1) := by omega
          rw [harith] at hin
          exact List.mem_append.mpr (Or.inr hin)

theorem content_matches_from_member :
    ∀ (lines : List (List Char)) (q : List Char) (i : Nat) (ms : List SearchMatch),
      content_matches_from lines q i = some ms →
      ∀ m ∈ ms, ∃ line o, occursAt (lowercase line) q o = true ∧
        m.line_content = ⟨line⟩ ∧ m.start_column = o + 1 ∧
        m.end_column = o + 1 + byteLen q := by
  intro lines
  induction lines with
  | nil =>
    intro q i ms h m hm
    unfold content_matches_from at h
    simp only [Option.some.injEq] at h
    subst h
    simp at hm
  | cons hd tl ih =>
    intro q i ms h m hm
    unfold content_matches_from at h
    split at h
    · exact absurd h (by simp)
    next ms1 h1 =>
      split at h
      · exact absurd h (by simp)
      next ms2 h2 =>
        simp only [Option.some.injEq] at h
        subst h
        rcases List.mem_append.mp hm with hm1 | hm2
        · obtain ⟨o, ho, hc, _, hs, he⟩ := line_matches_member q i hd ms1 h1 m hm1
          exact ⟨hd, o, ho, hc, hs, he⟩
        · exact ih q (i + 1) ms2 h2 m hm2

theorem search_node_step_member (n : TreeItem) (q : List Char)
    (flt : Option SearchFilters) (rs : List SearchResult)
    (h : search_node_step n q flt = some rs) :
    ∀ r ∈ rs, ∀ m ∈ r.match_list, ∃ line o,
      occursAt (lowercase line) q o = true ∧ m.line_content = ⟨line⟩ ∧
      m.start_column = o + 1 ∧ m.end_column = o + 1 + byteLen q := by
  intro r hr m hm
  cases n with
  | mk nid nm ty ch pid co vs md =>
    simp only [search_node_step] at h
    split at h
    case isFalse =>
      simp only [Option.some.injEq] at h
      subst h
      simp at hr
    case isTrue =>
      split at h
      · exact absurd h (by simp)
      next ms hms =>
        split at h
        case isTrue =>
          simp only [Option.some.injEq] at h
          subst h
          simp only [List.mem_singleton] at hr
          subst hr
          simp only [] at hm
          split at hms
          case isTrue =>
            split at hms
            next content hco =>
              exact content_matches_from_member _ q 0 ms hms m hm
            next hco =>
              simp only [Option.some.injEq] at hms
              subst hms
              simp at hm
          case isFalse =>
            simp only [Option.some.injEq] at hms
            subst hms
            simp at hm
        case isFalse =>
          simp only [Option.some.injEq] at h
          subst h
          simp at hr

theorem search_recursive_member :
    ∀ (data : List TreeItem) (q : List Char) (flt : Option SearchFilters)
      (rs : List SearchResult), search_recursive data q flt = some rs →
      ∀ r ∈ rs, ∀ m ∈ r.match_list, ∃ line o,
        occursAt (lowercase line) q o = true ∧ m.line_content = ⟨line⟩ ∧
        m.start_column = o + 1 ∧ m.end_column = o + 1 + byteLen q := by
  intro data q flt
  induction data using forest_induction with
  | h0 =>
    intro rs h r hr
    rw [search_recursive] at h
    simp only [Option.some.injEq] at h
    subst h
    simp at hr
  | h1 nid nm ty ch pid co vs md rest ih_ch ih_rest =>
    intro rs h r hr m hm
    rw [search_recursive] at h
    split at h
    · exact absurd h (by simp)
    next here hstep =>
      split at h
      · exact absurd h (by simp)
      next child_results hch =>
        split at h
        · exact absurd h (by simp)
        next rest_results hrest =>
          simp only [Option.some.injEq] at h
          subst h
          rcases List.mem_append.mp hr with hr1 | hr2
          · rcases List.mem_append.mp hr1 with hr11 | hr12
            · exact search_node_step_member _ q flt here hstep r hr11 m hm
            · exact ih_ch child_results hch r hr12 m hm
          · exact ih_rest rest_results hrest r hr2 m hm

/-! ## Claims C1, C2, C3: the search engine -/

/-- C1 counterexample: on the forest holding exactly one Prompt node with
content `"cat\nconcatenate\n"`, `search("cat", None)` returns one result with
exactly two matches — line 1 columns 1-4 and line 2 columns 4-7 — and not the
three matches the claim lists: `"cat"` does not occur at offset 0 of
`"concatenate"` (which starts with `"con"`), so there is no line-2 match at
columns 1-4. -/
theorem claim_C1_cex :
    search [c1_node] "cat" none =
      some [{ item_id := "id1", item_name := "p", item_type := .prompt,
              match_list := [⟨"cat", 1, 1, 4⟩, ⟨"concatenate", 2, 4, 7⟩],
              last_modified := none }] ∧
    ([⟨"cat", 1, 1, 4⟩, ⟨"concatenate", 2, 4, 7⟩] : List SearchMatch) ≠
      [⟨"cat", 1, 1, 4⟩, ⟨"concatenate", 2, 1, 4⟩, ⟨"concatenate", 2, 4, 7⟩] := by
  constructor
  · simp only [search, search_recursive, search_node_step, search_type_match, c1_node,
      content_matches, content_matches_from, line_matches, scan_line, scan_line_gas,
      trim_is_empty, lowercase, rust_lines, split_newline, strip_cr, byteLen, dropBytes,
      findFrom]
    decide
  · decide

/-- C1 (amended): for every Prompt content and every line of it, the content
scan of `search` reports every occurrence of the (lowercased) query in the
lowercased line — overlapping occurrences included, since the scan restarts
one byte past the start of each found occurrence — as a SearchMatch with the
occurrence's byte offset; and on the spec's example forest the search returns
exactly the two matches line 1 columns 1-4 and line 2 columns 4-7. -/
theorem claim_C1 :
    (∀ (content q : List Char) (ms : List SearchMatch),
        content_matches q content = some ms →
        ∀ (k : Nat) (line : List Char), (rust_lines content)[k]? = some line →
        ∀ o, occursAt (lowercase line) q o = true →
        ({ line_content := ⟨line⟩, line_number := k + 1,
           start_column := o + 1, end_column := o + 1 + byteLen q } : SearchMatch) ∈ ms) ∧
    search [c1_node] "cat" none =
      some [{ item_id := "id1", item_name := "p", item_type := .prompt,
              match_list := [⟨"cat", 1, 1, 4⟩, ⟨"concatenate", 2, 4, 7⟩],
              last_modified := none }] := by
  constructor
  · intro content q ms h k line hk o ho
    have hin := content_matches_from_complete (rust_lines content) q 0 ms h k line hk o ho
    simpa using hin
  · simp only [search, search_recursive, search_node_step, search_type_match, c1_node,
      content_matches, content_matches_from, line_matches, scan_line, scan_line_gas,
      trim_is_empty, lowercase, rust_lines, split_newline, strip_cr, byteLen, dropBytes,
      findFrom]
    decide

/-- Witness for C1 at a concrete input: the overlap-side occurrence of
`"cat"` at byte offset 3 of `"concatenate"` is reported. -/
theorem claim_C1_witness :
    ({ line_content := "concatenate", line_number := 1 + 1, start_column := 3 + 1,
       end_column := 3 + 1 + byteLen "cat".data } : SearchMatch) ∈
      ([⟨"cat", 1, 1, 4⟩, ⟨"concatenate", 2, 4, 7⟩] : List SearchMatch) :=
  claim_C1.1 "cat\nconcatenate\n".data "cat".data
    [⟨"cat", 1, 1, 4⟩, ⟨"concatenate", 2, 4, 7⟩] (by decide)
    1 "concatenate".data (by decide) 3 (by decide)

/-- C2 counterexample: on a Prompt node whose content line is `"écat"`, the
code reports `start_column = 3` (byte offset of the occurrence plus one: `é`
is two bytes), while the claim's character-offset reading demands
`start_column = 2` (the occurrence starts after one character). -/
theorem claim_C2_cex :
    search [c2_node] "cat" none =
      some [{ item_id := "id2", item_name := "p", item_type := .prompt,
              match_list := [⟨"écat", 1, 3, 6⟩], last_modified := none }] ∧
    findFromCharIdx (lowercase "écat".data) (lowercase "cat".data) = some 1 ∧
    (3 : Nat) ≠ 1 + 1 := by
  refine ⟨?_, by decide, by decide⟩
  simp only [search, search_recursive, search_node_step, search_type_match, c2_node,
    content_matches, content_matches_from, line_matches, scan_line, scan_line_gas,
    trim_is_empty, lowercase, rust_lines, split_newline, strip_cr, byteLen, dropBytes,
    findFrom]
  decide

/-- C2 (amended): every SearchMatch reported by `search` locates an occurrence
of the lowercased query in the lowercased matched line at some byte offset
`o`, and carries `start_column = o + 1` (1-based byte offset, not character
offset) and `end_column = start_column +` the byte length of the lowercased
query. -/
theorem claim_C2 :
    ∀ (data : List TreeItem) (query : String) (flt : Option SearchFilters)
      (rs : List SearchResult), search data query flt = some rs →
      ∀ r ∈ rs, ∀ m ∈ r.match_list, ∃ line o,
        occursAt (lowercase line) (lowercase query.data) o = true ∧
        m.line_content = ⟨line⟩ ∧ m.start_column = o + 1 ∧
        m.end_column = o + 1 + byteLen (lowercase query.data) := by
  intro data query flt rs h r hr m hm
  unfold search at h
  split at h
  · simp only [Option.some.injEq] at h
    subst h
    simp at hr
  · exact search_recursive_member data (lowercase query.data) flt rs h r hr m hm

/-- Witness for C2 at the concrete `"écat"` forest. -/
theorem claim_C2_witness :
    ∃ line o,
      occursAt (lowercase line) (lowercase ("cat" : String).data) o = true ∧
      (⟨"écat", 1, 3, 6⟩ : SearchMatch).line_content = ⟨line⟩ ∧
      (⟨"écat", 1, 3, 6⟩ : SearchMatch).start_column = o + 1 ∧
      (⟨"écat", 1, 3, 6⟩ : SearchMatch).end_column =
        o + 1 + byteLen (lowercase ("cat" : String).data) :=
  claim_C2 [c2_node] "cat" none
    [{ item_id := "id2", item_name := "p", item_type := .prompt,
       match_list := [⟨"écat", 1, 3, 6⟩], last_modified := none }]
    (claim_C2_cex.1)
    { item_id := "id2", item_name := "p", item_type := .prompt,
      match_list := [⟨"écat", 1, 3, 6⟩], last_modified := none } (by simp)
    (⟨"écat", 1, 3, 6⟩ : SearchMatch) (by simp)

/-- C3: `search` is not total — on the forest with one Prompt node whose
content is `"éé"`, searching for `"é"` panics: after the match at byte offset
0, the scan restarts at byte offset 1, which is inside the two-byte character
`é`, and the slice `lower_line[1..]` panics (`none` in the model). -/
theorem claim_C3 : search [c3_node] "é" none = none := by
  simp only [search, search_recursive, search_node_step, search_type_match, c3_node,
    content_matches, content_matches_from, line_matches, scan_line, scan_line_gas,
    trim_is_empty, lowercase, rust_lines, split_newline, strip_cr, byteLen, dropBytes,
    findFrom]
  decide

/-! ## Helper lemmas: forests, ids and `find_node_recursive` -/

theorem collect_ids_nil : collect_ids [] = [] := by simp [collect_ids]

theorem collect_ids_cons (n : TreeItem) (rest : List TreeItem) :
    collect_ids (n :: rest) = subtree_ids n ++ collect_ids rest := by
  cases n with
  | mk nid nm ty ch pid co vs md =>
    simp [collect_ids, subtree_ids, TreeItem.id, TreeItem.children]

theorem mem_collect_ids_of_mem :
    ∀ (f : List TreeItem) (t : TreeItem), t ∈ f → t.id ∈ collect_ids f := by
  intro f
  induction f with
  | nil => intro t h; simp at h
  | cons n rest ih =>
    intro t h
    rw [collect_ids_cons]
    rcases List.mem_cons.mp h with rfl | h2
    · exact List.mem_append.mpr (Or.inl (List.mem_cons.mpr (Or.inl rfl)))
    · exact List.mem_append.mpr (Or.inr (ih t h2))

theorem find_node_none_iff :
    ∀ (f : List TreeItem) (i : String),
      find_node_recursive f i = none ↔ i ∉ collect_ids f := by
  intro f
  induction f using forest_induction with
  | h0 => intro i; simp [find_node_recursive, collect_ids]
  | h1 nid nm ty ch pid co vs md rest ih_ch ih_rest =>
    intro i
    rw [find_node_recursive]
    constructor
    · intro h
      split at h
      · exact absurd h (by simp)
      next hne =>
        split at h
        · exact absurd h (by simp)
        next hcn =>
          simp only [collect_ids, List.mem_cons, List.mem_append]
          push_neg
          exact ⟨fun he => hne he.symm, (ih_ch i).mp hcn, (ih_rest i).mp h⟩
    · intro h
      simp only [collect_ids, List.mem_cons, List.mem_append] at h
      push_neg at h
      obtain ⟨h1, h2, h3⟩ := h
      rw [if_neg (fun he => h1 (by exact he.symm))]
      simp only [(ih_ch i).mpr h2]
      exact (ih_rest i).mpr h3

theorem find_node_some_mem (f : List TreeItem) (i : String) (n : TreeItem)
    (h : find_node_recursive f i = some n) : i ∈ collect_ids f := by
  by_contra hmem
  rw [(find_node_none_iff f i).mpr hmem] at h
  exact absurd h (by simp)

theorem find_node_id :
    ∀ (f : List TreeItem) (i : String) (n : TreeItem),
      find_node_recursive f i = some n → n.id = i := by
  intro f
  induction f using forest_induction with
  | h0 => intro i n h; simp [find_node_recursive] at h
  | h1 nid nm ty ch pid co vs md rest ih_ch ih_rest =>
    intro i n h
    rw [find_node_recursive] at h
    split at h
    next he =>
      simp only [Option.some.injEq] at h
      subst h
      simpa [TreeItem.id] using he
    next hne =>
      split at h
      next found hf =>
        simp only [Option.some.injEq] at h
        subst h
        exact ih_ch i _ hf
      next hcn => exact ih_rest i n h

theorem find_node_sub_ids :
    ∀ (f : List TreeItem) (i : String) (n : TreeItem),
      find_node_recursive f i = some n →
      ∀ j, j ∈ subtree_ids n → j ∈ collect_ids f := by
  intro f
  induction f using forest_induction with
  | h0 => intro i n h; simp [find_node_recursive] at h
  | h1 nid nm ty ch pid co vs md rest ih_ch ih_rest =>
    intro i n h j hj
    rw [find_node_recursive] at h
    rw [collect_ids_cons]
    split at h
    next he =>
      simp only [Option.some.injEq] at h
      subst h
      exact List.mem_append.mpr (Or.inl hj)
    next hne =>
      split at h
      next found hf =>
        simp only [Option.some.injEq] at h
        subst h
        have hms := ih_ch i _ hf j hj
        simp only [subtree_ids, TreeItem.id, TreeItem.children, List.cons_append,
          List.mem_cons, List.mem_append]
        exact Or.inr (Or.inl hms)
      next hcn =>
        exact List.mem_append.mpr (Or.inr (ih_rest i n h j hj))

theorem find_node_append :
    ∀ (a b : List TreeItem) (i : String),
      find_node_recursive (a ++ b) i =
        match find_node_recursive a i with
        | some n => some n
        | none => find_node_recursive b i := by
  intro a
  induction a using forest_induction with
  | h0 => intro b i; simp [find_node_recursive]
  | h1 nid nm ty ch pid co vs md rest ih_ch ih_rest =>
    intro b i
    rw [List.cons_append, find_node_recursive, find_node_recursive]
    by_cases he : nid = i
    · rw [if_pos he, if_pos he]
    · rw [if_neg he, if_neg he]
      cases hc : find_node_recursive ch i with
      | some found => simp only [hc]
      | none =>
        simp only [hc]
        exact ih_rest b i

/-! ## Helper lemmas: `push_child_recursive` -/

theorem push_child_none_iff :
    ∀ (f : List TreeItem) (i : String) (c : TreeItem),
      push_child_recursive f i c = none ↔ find_node_recursive f i = none := by
  intro f
  induction f using forest_induction with
  | h0 => intro i c; simp [push_child_recursive, find_node_recursive]
  | h1 nid nm ty ch pid co vs md rest ih_ch ih_rest =>
    intro i c
    rw [push_child_recursive, find_node_recursive]
    by_cases he : nid = i
    · rw [if_pos he, if_pos he]
      simp
    · rw [if_neg he, if_neg he]
      cases hp : push_child_recursive ch i c with
      | some ch2 =>
        simp only [hp]
        have : ¬ find_node_recursive ch i = none := by
          intro hn
          rw [← (ih_ch i c)] at hn
          rw [hn] at hp
          exact absurd hp (by simp)
        cases hc : find_node_recursive ch i with
        | some found => simp
        | none => exact absurd hc this
      | none =>
        simp only [hp]
        have hc : find_node_recursive ch i = none := (ih_ch i c).mp hp
        simp only [hc]
        cases hr : push_child_recursive rest i c with
        | some rest2 =>
          simp only [hr]
          have : ¬ find_node_recursive rest i = none := by
            intro hn
            rw [← (ih_rest i c)] at hn
            rw [hn] at hr
            exact absurd hr (by simp)
          constructor
          · intro hfalse; exact absurd hfalse (by simp)
          · intro hn; exact absurd hn this
        | none =>
          simp only [hr]
          have := (ih_rest i c).mp hr
          simp only [this]

theorem push_child_found :
    ∀ (f : List TreeItem) (i : String) (c : TreeItem) (parent : TreeItem),
      find_node_recursive f i = some parent →
      ∃ f2, push_child_recursive f i c = some f2 ∧
        find_node_recursive f2 i = some (append_child parent c) := by
  intro f
  induction f using forest_induction with
  | h0 => intro i c parent h; simp [find_node_recursive] at h
  | h1 nid nm ty ch pid co vs md rest ih_ch ih_rest =>
    intro i c parent h
    rw [find_node_recursive] at h
    split at h
    next he =>
      simp only [Option.some.injEq] at h
      subst h
      refine ⟨.mk nid nm ty (ch ++ [c]) pid co vs md :: rest, ?_, ?_⟩
      · rw [push_child_recursive, if_pos he]
      · rw [find_node_recursive, if_pos he]
        simp [append_child]
    next hne =>
      split at h
      next found hf =>
        simp only [Option.some.injEq] at h
        subst h
        obtain ⟨ch2, hp, hfind⟩ := ih_ch i c _ hf
        refine ⟨.mk nid nm ty ch2 pid co vs md :: rest, ?_, ?_⟩
        · rw [push_child_recursive, if_neg hne]
          simp only [hp]
        · rw [find_node_recursive, if_neg hne]
          simp only [hfind]
      next hcn =>
        obtain ⟨rest2, hp, hfind⟩ := ih_rest i c parent h
        refine ⟨.mk nid nm ty ch pid co vs md :: rest2, ?_, ?_⟩
        · rw [push_child_recursive, if_neg hne]
          simp only [(push_child_none_iff ch i c).mpr hcn, hp]
        · rw [find_node_recursive, if_neg hne]
          simp only [hcn, hfind]

/-! ## Helper lemmas: `update_node_recursive` -/

theorem update_node_none_iff :
    ∀ (f : List TreeItem) (i : String) (u : TreeItem) (now : Int),
      update_node_recursive f i u now = none ↔ find_node_recursive f i = none := by
  intro f
  induction f using forest_induction with
  | h0 => intro i u now; simp [update_node_recursive, find_node_recursive]
  | h1 nid nm ty ch pid co vs md rest ih_ch ih_rest =>
    intro i u now
    rw [update_node_recursive, find_node_recursive]
    by_cases he : nid = i
    · rw [if_pos he, if_pos he]
      simp
    · rw [if_neg he, if_neg he]
      cases hp : update_node_recursive ch i u now with
      | some pr =>
        simp only [hp]
        have : ¬ find_node_recursive ch i = none := by
          intro hn
          rw [← (ih_ch i u now)] at hn
          rw [hn] at hp
          exact absurd hp (by simp)
        cases hc : find_node_recursive ch i with
        | some found => simp
        | none => exact absurd hc this
      | none =>
        simp only [hp]
        have hc : find_node_recursive ch i = none := (ih_ch i u now).mp hp
        simp only [hc]
        cases hr : update_node_recursive rest i u now with
        | some pr2 =>
          simp only [hr]
          have : ¬ find_node_recursive rest i = none := by
            intro hn
            rw [← (ih_rest i u now)] at hn
            rw [hn] at hr
            exact absurd hr (by simp)
          constructor
          · intro hfalse; exact absurd hfalse (by simp)
          · intro hn; exact absurd hn this
        | none =>
          simp only [hr]
          simp only [(ih_rest i u now).mp hr]

theorem update_node_found :
    ∀ (f : List TreeItem) (i : String) (u : TreeItem) (now : Int) (n : TreeItem),
      find_node_recursive f i = some n →
      ∃ f2, update_node_recursive f i u now = some (apply_updates n u now, f2) := by
  intro f
  induction f using forest_induction with
  | h0 => intro i u now n h; simp [find_node_recursive] at h
  | h1 nid nm ty ch pid co vs md rest ih_ch ih_rest =>
    intro i u now n h
    rw [find_node_recursive] at h
    split at h
    next he =>
      simp only [Option.some.injEq] at h
      subst h
      refine ⟨apply_updates (.mk nid nm ty ch pid co vs md) u now :: rest, ?_⟩
      rw [update_node_recursive, if_pos he]
    next hne =>
      split at h
      next found hf =>
        simp only [Option.some.injEq] at h
        subst h
        obtain ⟨ch2, hu⟩ := ih_ch i u now _ hf
        refine ⟨.mk nid nm ty ch2 pid co vs md :: rest, ?_⟩
        rw [update_node_recursive, if_neg hne]
        simp only [hu]
      next hcn =>
        obtain ⟨rest2, hu⟩ := ih_rest i u now n h
        refine ⟨.mk nid nm ty ch pid co vs md :: rest2, ?_⟩
        rw [update_node_recursive, if_neg hne]
        simp only [(update_node_none_iff ch i u now).mpr hcn, hu]

/-! ## Claim C4: `update_item` merge semantics -/

/-- C4: for every node found by id, `update_item` returns `Ok` of the merged
node and a new forest; the merged node overwrites `name`, `content` and
`versions` with the patch's values unconditionally, replaces
`metadata.description` and `metadata.tags` only when the patch supplies a
non-null value (otherwise the prior value is retained), and always sets
`metadata.last_modified` to the supplied current time. -/
theorem claim_C4 :
    ∀ (f : List TreeItem) (i : String) (u : TreeItem) (now : Int) (n : TreeItem),
      find_node_recursive f i = some n →
      ∃ f2, update_item f i u now = (Except.ok (apply_updates n u now), f2) ∧
        (apply_updates n u now).name = u.name ∧
        (apply_updates n u now).content = u.content ∧
        (apply_updates n u now).versions = u.versions ∧
        (u.metadata.description = none →
          (apply_updates n u now).metadata.description = n.metadata.description) ∧
        (∀ v, u.metadata.description = some v →
          (apply_updates n u now).metadata.description = some v) ∧
        (u.metadata.tags = none →
          (apply_updates n u now).metadata.tags = n.metadata.tags) ∧
        (∀ v, u.metadata.tags = some v →
          (apply_updates n u now).metadata.tags = some v) ∧
        (apply_updates n u now).metadata.last_modified = some now := by
  intro f i u now n h
  obtain ⟨f2, hu⟩ := update_node_found f i u now n h
  refine ⟨f2, ?_, ?_⟩
  · unfold update_item
    simp only [hu]
  · cases n with
    | mk nid2 nnm nty nch npid nco nvs nmd =>
      cases u with
      | mk uid unm uty uch upid uco uvs umd =>
        refine ⟨by simp [apply_updates, TreeItem.name],
          by simp [apply_updates, TreeItem.content],
          by simp [apply_updates, TreeItem.versions], ?_, ?_, ?_, ?_,
          by simp [apply_updates, TreeItem.metadata]⟩
        · intro hd
          simp only [TreeItem.metadata] at hd
          simp [apply_updates, TreeItem.metadata, hd, opt_or]
        · intro v hd
          simp only [TreeItem.metadata] at hd
          simp [apply_updates, TreeItem.metadata, hd, opt_or]
        · intro hd
          simp only [TreeItem.metadata] at hd
          simp [apply_updates, TreeItem.metadata, hd, opt_or]
        · intro v hd
          simp only [TreeItem.metadata] at hd
          simp [apply_updates, TreeItem.metadata, hd, opt_or]

/-- Witness for C4 at a concrete input: a patch with absent tags retains the
prior tags, its empty name replaces the prior name, and `last_modified` is
refreshed. -/
theorem claim_C4_witness :
    (apply_updates w4_node w4_patch 9).metadata.tags = some ["t1"] ∧
    (apply_updates w4_node w4_patch 9).name = "" ∧
    (apply_updates w4_node w4_patch 9).metadata.last_modified = some 9 := by
  obtain ⟨f2, hupd, hname, hcont, hvers, hdn, hds, htn, hts, hlast⟩ :=
    claim_C4 [w4_node] "u1" w4_patch 9 w4_node (by simp [find_node_recursive, w4_node])
  refine ⟨?_, ?_, hlast⟩
  · rw [htn (by simp [w4_patch, TreeItem.metadata])]
    simp [w4_node, TreeItem.metadata]
  · rw [hname]
    simp [w4_patch, TreeItem.name]

/-! ## Claims C6, C7: `add_item` -/

/-- C6: `add_item` overwrites the candidate's id with the supplied fresh id
and its `metadata.last_modified` with the current time (all other fields kept);
with no parent it appends the node at the end of the forest and a subsequent
`get_item` on the new id returns it; with a resolving parent id it appends the
node at the end of that parent's children. -/
theorem claim_C6 :
    ∀ (f : List TreeItem) (X : TreeItem) (new_id : String) (now : Int),
      new_id ∉ collect_ids f →
      (add_item f none X new_id now =
         (Except.ok (X.set_id_time new_id now), f ++ [X.set_id_time new_id now]) ∧
       find_node_recursive (f ++ [X.set_id_time new_id now]) new_id =
         some (X.set_id_time new_id now) ∧
       (X.set_id_time new_id now).id = new_id ∧
       (X.set_id_time new_id now).metadata.last_modified = some now ∧
       (X.set_id_time new_id now).name = X.name ∧
       (X.set_id_time new_id now).item_type = X.item_type ∧
       (X.set_id_time new_id now).children = X.children ∧
       (X.set_id_time new_id now).parent_id = X.parent_id ∧
       (X.set_id_time new_id now).content = X.content ∧
       (X.set_id_time new_id now).versions = X.versions ∧
       (X.set_id_time new_id now).metadata.description = X.metadata.description ∧
       (X.set_id_time new_id now).metadata.tags = X.metadata.tags) ∧
      (∀ (p : String) (parent : TreeItem), find_node_recursive f p = some parent →
        ∃ f2, add_item f (some p) X new_id now =
            (Except.ok (X.set_id_time new_id now), f2) ∧
          find_node_recursive f2 p =
            some (append_child parent (X.set_id_time new_id now))) := by
  intro f X new_id now hfresh
  constructor
  · cases X with
    | mk xid xnm xty xch xpid xco xvs xmd =>
      refine ⟨by simp [add_item], ?_, ?_⟩
      · rw [find_node_append]
        simp only [(find_node_none_iff f new_id).mpr hfresh]
        simp [find_node_recursive, TreeItem.set_id_time]
      · simp [TreeItem.set_id_time, TreeItem.id, TreeItem.metadata, TreeItem.name,
          TreeItem.item_type, TreeItem.children, TreeItem.parent_id, TreeItem.content,
          TreeItem.versions]
  · intro p parent hp
    obtain ⟨f2, hpush, hfind⟩ := push_child_found f p (X.set_id_time new_id now) parent hp
    refine ⟨f2, ?_, hfind⟩
    simp [add_item, hpush]

/-- Witness for C6 at a concrete two-node forest and the fresh id `"b"`. -/
theorem claim_C6_witness :
    add_item [w_parent] none c1_node "b" 7 =
      (Except.ok (c1_node.set_id_time "b" 7), [w_parent, c1_node.set_id_time "b" 7]) ∧
    find_node_recursive [w_parent, c1_node.set_id_time "b" 7] "b" =
      some (c1_node.set_id_time "b" 7) := by
  have h := claim_C6 [w_parent] c1_node "b" 7
    (by simp [collect_ids, w_parent, w_child])
  exact ⟨h.1.1, h.1.2.1⟩

/-- C7: when the requested parent id resolves to no node, `add_item` fails
with the "Parent not found" error and returns the forest unchanged. -/
theorem claim_C7 :
    ∀ (f : List TreeItem) (p : String) (X : TreeItem) (new_id : String) (now : Int),
      find_node_recursive f p = none →
      add_item f (some p) X new_id now = (Except.error "Parent not found", f) := by
  intro f p X new_id now h
  simp [add_item, (push_child_none_iff f p (X.set_id_time new_id now)).mpr h]

/-- Witness for C7: adding under a missing parent id in a nonempty forest. -/
theorem claim_C7_witness :
    add_item [w_parent] (some "zz") c1_node "y" 3 =
      (Except.error "Parent not found", [w_parent]) :=
  claim_C7 [w_parent] "zz" c1_node "y" 3
    (by simp [find_node_recursive, w_parent, w_child])

/-! ## Helper lemmas: `delete_node_recursive` -/

theorem remove_first_none_iff :
    ∀ (f : List TreeItem) (i : String),
      remove_first_id f i = none ↔ ∀ t ∈ f, t.id ≠ i := by
  intro f
  induction f with
  | nil => intro i; simp [remove_first_id]
  | cons t rest ih =>
    intro i
    rw [remove_first_id]
    by_cases he : t.id = i
    · rw [if_pos he]
      constructor
      · intro h; exact absurd h (by simp)
      · intro h; exact absurd he (h t (List.mem_cons.mpr (Or.inl rfl)))
    · rw [if_neg he]
      constructor
      · intro h u hu
        rcases List.mem_cons.mp hu with rfl | hu2
        · exact he
        · cases hr : remove_first_id rest i with
          | some r2 => rw [hr] at h; exact absurd h (by simp)
          | none => exact (ih i).mp hr u hu2
      · intro h
        have : remove_first_id rest i = none :=
          (ih i).mpr (fun u hu => h u (List.mem_cons.mpr (Or.inr hu)))
        rw [this]
        rfl

theorem remove_first_split :
    ∀ (f : List TreeItem) (i : String) (f2 : List TreeItem),
      remove_first_id f i = some f2 →
      ∃ pre t post, f = pre ++ t :: post ∧ t.id = i ∧ (∀ u ∈ pre, u.id ≠ i) ∧
        f2 = pre ++ post := by
  intro f
  induction f with
  | nil => intro i f2 h; simp [remove_first_id] at h
  | cons t rest ih =>
    intro i f2 h
    rw [remove_first_id] at h
    by_cases he : t.id = i
    · rw [if_pos he] at h
      simp only [Option.some.injEq] at h
      subst h
      exact ⟨[], t, rest, rfl, he, by simp, rfl⟩
    · rw [if_neg he] at h
      cases hr : remove_first_id rest i with
      | none => rw [hr] at h; exact absurd h (by simp)
      | some r2 =>
        rw [hr] at h
        simp only [Option.map_some', Option.some.injEq] at h
        subst h
        obtain ⟨pre, u, post, hsplit, hid, hpre, hr2⟩ := ih i r2 hr
        exact ⟨t :: pre, u, post, by rw [hsplit]; simp, hid,
          fun v hv => by
            rcases List.mem_cons.mp hv with rfl | hv2
            · exact he
            · exact hpre v hv2,
          by rw [hr2]; simp⟩

theorem delete_noop :
    ∀ (f : List TreeItem) (i : String), i ∉ collect_ids f →
      delete_node_recursive f i = f ∧ delete_children_all f i = f := by
  intro f
  induction f using forest_induction with
  | h0 =>
    intro i hmem
    constructor
    · simp only [delete_node_recursive, remove_first_id, delete_children_all]
    · simp only [delete_children_all]
  | h1 nid nm ty ch pid co vs md rest ih_ch ih_rest =>
    intro i hmem
    simp only [collect_ids, List.mem_cons, List.mem_append] at hmem
    push_neg at hmem
    obtain ⟨h1, h2, h3⟩ := hmem
    have hall : delete_children_all (TreeItem.mk nid nm ty ch pid co vs md :: rest) i =
        TreeItem.mk nid nm ty ch pid co vs md :: rest := by
      rw [delete_children_all]
      rw [(ih_ch i h2).1, (ih_rest i h3).2]
    constructor
    · rw [delete_node_recursive]
      have hrf : remove_first_id (TreeItem.mk nid nm ty ch pid co vs md :: rest) i = none := by
        apply (remove_first_none_iff _ i).mpr
        intro t ht
        rcases List.mem_cons.mp ht with rfl | ht2
        · simpa [TreeItem.id] using fun he => h1 he.symm
        · intro he
          exact h3 (he ▸ mem_collect_ids_of_mem rest t ht2)
      rw [hrf]
      exact hall
    · exact hall

theorem delete_removes_subtree :
    ∀ (f : List TreeItem) (i : String) (n : TreeItem),
      (collect_ids f).Nodup → find_node_recursive f i = some n →
      ∀ j, j ∈ subtree_ids n → j ∉ collect_ids (delete_node_recursive f i) := by
  intro f
  induction f using forest_induction with
  | h0 => intro i n hnd h; simp [find_node_recursive] at h
  | h1 nid nm ty ch pid co vs md rest ih_ch ih_rest =>
    intro i n hnd hfind j hj
    simp only [collect_ids, List.nodup_cons, List.nodup_append] at hnd
    obtain ⟨hnid, hndch, hndrest, hdisj⟩ := hnd
    rw [find_node_recursive] at hfind
    split at hfind
    next he =>
      simp only [Option.some.injEq] at hfind
      subst hfind
      have hdel : delete_node_recursive (TreeItem.mk nid nm ty ch pid co vs md :: rest) i
          = rest := by
        rw [delete_node_recursive, remove_first_id, if_pos (by simpa [TreeItem.id] using he)]
      rw [hdel]
      simp only [subtree_ids, TreeItem.id, TreeItem.children, List.mem_cons] at hj
      rcases hj with rfl | hj2
      · intro hmem
        exact hnid (List.mem_append.mpr (Or.inr hmem))
      · exact fun hmem => hdisj hj2 hmem
    next hne =>
      split at hfind
      next found hf =>
        simp only [Option.some.injEq] at hfind
        subst hfind
        have himem : i ∈ collect_ids ch := find_node_some_mem ch i _ hf
        have hinotrest : i ∉ collect_ids rest := fun hmem => hdisj himem hmem
        have hrf : remove_first_id (TreeItem.mk nid nm ty ch pid co vs md :: rest) i
            = none := by
          apply (remove_first_none_iff _ i).mpr
          intro t ht
          rcases List.mem_cons.mp ht with rfl | ht2
          · simpa [TreeItem.id] using hne
          · intro he
            exact hinotrest (he ▸ mem_collect_ids_of_mem rest t ht2)
        have hjch : j ∈ collect_ids ch := find_node_sub_ids ch i _ hf j hj
        rw [delete_node_recursive, hrf, delete_children_all,
          (delete_noop rest i hinotrest).2]
        simp only [collect_ids, List.mem_cons, List.mem_append]
        push_neg
        refine ⟨?_, ?_, ?_⟩
        · intro he2
          exact hnid (he2 ▸ List.mem_append.mpr (Or.inl hjch))
        · exact ih_ch i _ hndch hf j hj
        · exact fun hmem => hdisj hjch hmem
      next hcn =>
        have hinotch : i ∉ collect_ids ch := (find_node_none_iff ch i).mp hcn
        have hjrest : j ∈ collect_ids rest := find_node_sub_ids rest i n hfind j hj
        have hdel : delete_node_recursive (TreeItem.mk nid nm ty ch pid co vs md :: rest) i
            = TreeItem.mk nid nm ty ch pid co vs md :: delete_node_recursive rest i := by
          cases hr : remove_first_id rest i with
          | some r2 =>
            have h1 : remove_first_id (TreeItem.mk nid nm ty ch pid co vs md :: rest) i
                = some (TreeItem.mk nid nm ty ch pid co vs md :: r2) := by
              rw [remove_first_id, if_neg (by simpa [TreeItem.id] using hne), hr]
              rfl
            have h2 : delete_node_recursive rest i = r2 := by
              rw [delete_node_recursive, hr]
            rw [delete_node_recursive, h1, h2]
          | none =>
            have h1 : remove_first_id (TreeItem.mk nid nm ty ch pid co vs md :: rest) i
                = none := by
              rw [remove_first_id, if_neg (by simpa [TreeItem.id] using hne), hr]
              rfl
            have h3 : delete_node_recursive rest i = delete_children_all rest i := by
              rw [delete_node_recursive, hr]
            rw [delete_node_recursive, h1, delete_children_all,
              (delete_noop ch i hinotch).1, h3]
        rw [hdel]
        simp only [collect_ids, List.mem_cons, List.mem_append]
        push_neg
        refine ⟨?_, ?_, ?_⟩
        · intro he2
          exact hnid (he2 ▸ List.mem_append.mpr (Or.inr hjrest))
        · exact fun hmem => hdisj hmem hjrest
        · exact ih_rest i n hndrest hfind j hj

/-! ## Claims C5, C9: `delete_item` -/

/-- C5 counterexample: on a forest with two roots sharing the id `"a"`
(violating the uniqueness invariant), `delete_item "a"` removes only the
first root, and a subsequent `get_item "a"` still finds the second — so the
claim's unconditional "for every forest" quantification fails. -/
theorem claim_C5_cex :
    (delete_item [dup_a1, dup_a2] "a").1 = Except.ok () ∧
    find_node_recursive ((delete_item [dup_a1, dup_a2] "a").2) "a" = some dup_a2 ∧
    find_node_recursive ((delete_item [dup_a1, dup_a2] "a").2) "a" ≠ none := by
  refine ⟨rfl, ?_, ?_⟩ <;>
    simp [delete_item, delete_node_recursive, remove_first_id, find_node_recursive,
      dup_a1, dup_a2, TreeItem.id]

/-- C5 (amended): on every forest whose node ids are globally unique (the
data-model invariant), after `delete_item id` succeeds, `get_item id` returns
nothing and `get_item` of every id that was a descendant of the deleted node
also returns nothing (the whole subtree is removed); and `delete_item` always
returns success, even when the id resolves to no node. -/
theorem claim_C5 :
    ∀ (f : List TreeItem) (i : String) (n : TreeItem),
      (collect_ids f).Nodup → find_node_recursive f i = some n →
      (delete_item f i).1 = Except.ok () ∧
      find_node_recursive (delete_node_recursive f i) i = none ∧
      (∀ d, d ∈ collect_ids n.children →
        find_node_recursive (delete_node_recursive f i) d = none) ∧
      (∀ (g : List TreeItem) (j : String), (delete_item g j).1 = Except.ok ()) := by
  intro f i n hnd hfind
  refine ⟨rfl, ?_, ?_, fun g j => rfl⟩
  · apply (find_node_none_iff _ _).mpr
    apply delete_removes_subtree f i n hnd hfind
    have hid := find_node_id f i n hfind
    simp [subtree_ids, hid]
  · intro d hd
    apply (find_node_none_iff _ _).mpr
    exact delete_removes_subtree f i n hnd hfind d (by simp [subtree_ids, hd])

/-- Witness for C5 at a concrete two-level forest with unique ids: deleting
the root makes both the root id and the child id unresolvable. -/
theorem claim_C5_witness :
    (delete_item [w_parent] "r").1 = Except.ok () ∧
    find_node_recursive (delete_node_recursive [w_parent] "r") "r" = none ∧
    (∀ d, d ∈ collect_ids w_parent.children →
      find_node_recursive (delete_node_recursive [w_parent] "r") d = none) ∧
    (∀ (g : List TreeItem) (j : String), (delete_item g j).1 = Except.ok ()) :=
  claim_C5 [w_parent] "r" w_parent
    (by simp [collect_ids, w_parent, w_child])
    (by simp [find_node_recursive, w_parent])

theorem delete_children_all_map :
    ∀ (f : List TreeItem) (i : String),
      delete_children_all f i =
        f.map (fun t => t.set_children (delete_node_recursive t.children i)) := by
  intro f
  induction f using forest_induction with
  | h0 => intro i; rw [delete_children_all]; simp
  | h1 nid nm ty ch pid co vs md rest ih_ch ih_rest =>
    intro i
    rw [delete_children_all]
    simp only [List.map_cons]
    rw [ih_rest i]
    simp [TreeItem.set_children, TreeItem.children]

/-- C9 counterexample: in a forest with two distinct parents each holding a
child with the shared id `"a"`, `delete_item "a"` removes BOTH children (the
recursion continues into every branch when no sibling at the current level
matches), so more than one node is removed and not every other node carrying
the id remains. -/
theorem claim_C9_cex :
    (collect_ids [branch1, branch2]).count "a" = 2 ∧
    (collect_ids (delete_node_recursive [branch1, branch2] "a")).count "a" = 0 := by
  constructor
  · simp only [collect_ids, branch1, branch2, dup_a1, dup_a2]
    decide
  · simp [delete_node_recursive, delete_children_all, remove_first_id, collect_ids,
      branch1, branch2, dup_a1, dup_a2, TreeItem.id, TreeItem.children]

/-- C9 (amended): at each sibling list that `delete_node_recursive` reaches,
if some sibling carries the id then only the first such sibling (in order) is
spliced out, its whole subtree with it, and the recursion stops there; but
when no sibling matches, the deletion recurses into the children of every
sibling, so nodes sharing the id in disjoint branches are each removed (at
most one per visited sibling list, not one overall). -/
theorem claim_C9 :
    ∀ (f : List TreeItem) (i : String),
      ((∃ t ∈ f, t.id = i) →
        ∃ pre t post, f = pre ++ t :: post ∧ t.id = i ∧ (∀ u ∈ pre, u.id ≠ i) ∧
          delete_node_recursive f i = pre ++ post) ∧
      ((∀ t ∈ f, t.id ≠ i) →
        delete_node_recursive f i =
          f.map (fun t => t.set_children (delete_node_recursive t.children i))) := by
  intro f i
  constructor
  · intro hex
    obtain ⟨t0, ht0, hid0⟩ := hex
    cases hrf : remove_first_id f i with
    | none => exact absurd hid0 ((remove_first_none_iff f i).mp hrf t0 ht0)
    | some f2 =>
      obtain ⟨pre, t, post, hsplit, hid, hpre, hf2⟩ := remove_first_split f i f2 hrf
      refine ⟨pre, t, post, hsplit, hid, hpre, ?_⟩
      rw [delete_node_recursive, hrf, hf2]
  · intro hall
    have hrf : remove_first_id f i = none := (remove_first_none_iff f i).mpr hall
    rw [delete_node_recursive, hrf]
    exact delete_children_all_map f i

/-- Witness for C9: on the two-branch shared-id forest, no root matches, so
the deletion maps over every branch. -/
theorem claim_C9_witness :
    delete_node_recursive [branch1, branch2] "a" =
      [branch1, branch2].map
        (fun t => t.set_children (delete_node_recursive t.children "a")) :=
  (claim_C9 [branch1, branch2] "a").2
    (by
      intro t ht
      rcases List.mem_cons.mp ht with rfl | ht2
      · simp [branch1, TreeItem.id]
      · rcases List.mem_cons.mp ht2 with rfl | ht3
        · simp [branch2, TreeItem.id]
        · simp at ht3)

/-! ## Helper lemmas: `detach_node_recursive` and `move_item` -/

theorem detach_none_iff :
    ∀ (f : List TreeItem) (i : String),
      detach_node_recursive f i = none ↔ find_node_recursive f i = none := by
  intro f
  induction f using forest_induction with
  | h0 => intro i; simp [detach_node_recursive, find_node_recursive]
  | h1 nid nm ty ch pid co vs md rest ih_ch ih_rest =>
    intro i
    rw [detach_node_recursive, find_node_recursive]
    by_cases he : nid = i
    · rw [if_pos he, if_pos he]
      simp
    · rw [if_neg he, if_neg he]
      cases hp : detach_node_recursive ch i with
      | some pr =>
        simp only [hp]
        have : ¬ find_node_recursive ch i = none := by
          intro hn
          rw [← (ih_ch i)] at hn
          rw [hn] at hp
          exact absurd hp (by simp)
        cases hc : find_node_recursive ch i with
        | some found => simp
        | none => exact absurd hc this
      | none =>
        simp only [hp]
        have hc : find_node_recursive ch i = none := (ih_ch i).mp hp
        simp only [hc]
        cases hr : detach_node_recursive rest i with
        | some pr2 =>
          simp only [hr]
          have : ¬ find_node_recursive rest i = none := by
            intro hn
            rw [← (ih_rest i)] at hn
            rw [hn] at hr
            exact absurd hr (by simp)
          constructor
          · intro hfalse; exact absurd hfalse (by simp)
          · intro hn; exact absurd hn this
        | none =>
          simp only [hr]
          simp only [(ih_rest i).mp hr]

theorem detach_perm :
    ∀ (f : List TreeItem) (i : String) (n : TreeItem) (rest : List TreeItem),
      detach_node_recursive f i = some (n, rest) →
      List.Perm (collect_ids f) (subtree_ids n ++ collect_ids rest) := by
  intro f
  induction f using forest_induction with
  | h0 => intro i n rest h; simp [detach_node_recursive] at h
  | h1 nid nm ty ch pid co vs md rest0 ih_ch ih_rest =>
    intro i n rest h
    rw [detach_node_recursive] at h
    split at h
    next he =>
      simp only [Option.some.injEq, Prod.mk.injEq] at h
      obtain ⟨h1, h2⟩ := h
      subst h1
      subst h2
      rw [collect_ids_cons]
    next hne =>
      split at h
      next m ch2 hdc =>
        simp only [Option.some.injEq, Prod.mk.injEq] at h
        obtain ⟨h1, h2⟩ := h
        subst h1
        subst h2
        have ihp := ih_ch i _ _ hdc
        rw [collect_ids_cons, collect_ids_cons]
        simp only [subtree_ids, TreeItem.id, TreeItem.children, List.cons_append,
          List.append_assoc]
        refine List.Perm.trans (List.Perm.cons nid (List.Perm.append_right _ ihp)) ?_
        rw [List.append_assoc]
        exact List.perm_middle.symm
      next hdcn =>
        split at h
        next m rest2 hdr =>
          simp only [Option.some.injEq, Prod.mk.injEq] at h
          obtain ⟨h1, h2⟩ := h
          subst h1
          subst h2
          have ihp := ih_rest i _ _ hdr
          rw [collect_ids_cons, collect_ids_cons]
          refine List.Perm.trans
            (List.Perm.append_left (subtree_ids (TreeItem.mk nid nm ty ch pid co vs md)) ihp) ?_
          rw [← List.append_assoc, ← List.append_assoc]
          exact List.Perm.append_right _ List.perm_append_comm
        next hdrn => exact absurd h (by simp)

/-! ## Claim C8: `move_item` (modelled from the spec) -/

/-- C8: on a forest with globally unique ids, `move_item` rejects (with an
error, leaving the forest unchanged) a move whose new parent lies inside the
moved node's own subtree (the node itself or any descendant), and a move
whose new parent id resolves to no node; an accepted move detaches the
node's subtree, updates its `parent_id`, and re-attaches it at the end of the
new parent's children (or as a root at the end of the forest when no new
parent is given). -/
theorem claim_C8 :
    ∀ (f : List TreeItem) (item_id : String),
      ((collect_ids f).Nodup →
        ∀ (node : TreeItem) (rest : List TreeItem) (p : String),
          detach_node_recursive f item_id = some (node, rest) →
          p ∈ subtree_ids node →
          move_item f item_id (some p) =
            (Except.error "New parent not found (missing, or inside the moved subtree)",
             f)) ∧
      (∀ p, find_node_recursive f p = none →
        ∃ msg, (move_item f item_id (some p)).1 = Except.error msg ∧
          (move_item f item_id (some p)).2 = f) ∧
      (∀ (node : TreeItem) (rest : List TreeItem),
        detach_node_recursive f item_id = some (node, rest) →
        move_item f item_id none =
          (Except.ok (node.set_parent none), rest ++ [node.set_parent none])) ∧
      (∀ (node parent : TreeItem) (rest : List TreeItem) (p : String),
        detach_node_recursive f item_id = some (node, rest) →
        find_node_recursive rest p = some parent →
        ∃ f2, move_item f item_id (some p) = (Except.ok (node.set_parent (some p)), f2) ∧
          find_node_recursive f2 p =
            some (append_child parent (node.set_parent (some p)))) := by
  intro f item_id
  refine ⟨?_, ?_, ?_, ?_⟩
  · intro hnd node rest p hdetach hp
    have hperm := detach_perm f item_id node rest hdetach
    have hnd2 : (subtree_ids node ++ collect_ids rest).Nodup := hperm.nodup_iff.mp hnd
    have hdisj := (List.nodup_append.mp hnd2).2.2
    have hnotrest : p ∉ collect_ids rest := fun hmem => hdisj hp hmem
    have hpush : push_child_recursive rest p (node.set_parent (some p)) = none :=
      (push_child_none_iff rest p _).mpr ((find_node_none_iff rest p).mpr hnotrest)
    simp [move_item, hdetach, hpush]
  · intro p hfp
    cases hdetach : detach_node_recursive f item_id with
    | none =>
      refine ⟨"Item not found", ?_, ?_⟩ <;> simp [move_item, hdetach]
    | some pr =>
      obtain ⟨node, rest⟩ := pr
      have hperm := detach_perm f item_id node rest hdetach
      have hnotf : p ∉ collect_ids f := (find_node_none_iff f p).mp hfp
      have hnotrest : p ∉ collect_ids rest := by
        intro hmem
        exact hnotf (hperm.mem_iff.mpr (List.mem_append.mpr (Or.inr hmem)))
      have hpush : push_child_recursive rest p (node.set_parent (some p)) = none :=
        (push_child_none_iff rest p _).mpr ((find_node_none_iff rest p).mpr hnotrest)
      refine ⟨"New parent not found (missing, or inside the moved subtree)", ?_, ?_⟩ <;>
        simp [move_item, hdetach, hpush]
  · intro node rest hdetach
    simp [move_item, hdetach]
  · intro node parent rest p hdetach hfind
    obtain ⟨f2, hpush, hf2⟩ := push_child_found rest p (node.set_parent (some p)) parent hfind
    refine ⟨f2, ?_, hf2⟩
    simp [move_item, hdetach, hpush]

/-- Witness for C8: moving the child `"c"` of the two-node forest under
itself is rejected and the forest is unchanged. -/
theorem claim_C8_witness :
    move_item [w_parent] "c" (some "c") =
      (Except.error "New parent not found (missing, or inside the moved subtree)",
       [w_parent]) :=
  (claim_C8 [w_parent] "c").1
    (by simp [collect_ids, w_parent, w_child])
    w_child [.mk "r" "root" .provider [] none none none ⟨none, none, none⟩] "c"
    (by simp [detach_node_recursive, w_parent, w_child])
    (by simp [subtree_ids, w_child, TreeItem.id, collect_ids, TreeItem.children])

/-! ## Claim C10: store construction fallback -/

/-- C10: at store construction, an absent file yields the empty forest; a
present file whose read fails falls back to the literal `"[]"` and thus to
the empty forest (given that the serializer parses `"[]"` as the empty
forest); and a present, readable but unparseable file also yields the empty
forest — never an error. -/
theorem claim_C10 :
    ∀ (read_result : Option String) (parse : String → Option (List TreeItem)),
      load_data false read_result parse = [] ∧
      (parse "[]" = some [] → load_data true none parse = []) ∧
      (∀ s, parse s = none → load_data true (some s) parse = []) := by
  intro read_result parse
  refine ⟨rfl, ?_, ?_⟩
  · intro h
    simp [load_data, h]
  · intro s h
    simp [load_data, h]

/-- Witness for C10 with the concrete parse function `w10_parse`. -/
theorem claim_C10_witness :
    load_data false none w10_parse = [] ∧
    load_data true none w10_parse = [] ∧
    load_data true (some "garbage") w10_parse = [] := by
  have h := claim_C10 none w10_parse
  exact ⟨h.1, h.2.1 (by simp [w10_parse]), h.2.2 "garbage" (by simp [w10_parse])⟩
